import Mathlib

/-!
Verification of the Content Matching & Ranking Engine of an IPTV Stremio
addon.  The engine lives in the `ContentMatcher` class and the real-time
search methods of the addon (title normalization, fuzzy similarity
scoring, quality/source tag extraction, candidate ranking, and the
one-hour result cache of the orchestrator).

Strings are embedded as lists of natural numbers (UTF-16 code units
restricted to ASCII, which is all the engine's own literals use);
JavaScript numbers are embedded as rationals.  Every definition below
mirrors the corresponding JavaScript function of the repository.
-/

/-- Code-unit list of a Lean string literal (used to write the engine's
string constants and concrete test inputs). -/
def str (s : String) : List Nat :=
  s.data.map Char.toNat

/-- Executable addition on ℚ (the library's `+` on ℚ is `@[irreducible]`,
so the embedding uses this `mkRat` form; `qadd_eq` identifies the two). -/
def qadd (a b : ℚ) : ℚ :=
  mkRat (a.num * b.den + b.num * a.den) (a.den * b.den)

/-- Executable subtraction on ℚ; `qsub_eq` identifies it with `-`. -/
def qsub (a b : ℚ) : ℚ :=
  mkRat (a.num * b.den - b.num * a.den) (a.den * b.den)

/-- Executable multiplication on ℚ; `qmul_eq` identifies it with `*`. -/
def qmul (a b : ℚ) : ℚ :=
  mkRat (a.num * b.num) (a.den * b.den)

theorem qden_ne (a : ℚ) : ((a.den : ℚ)) ≠ 0 := by
  exact_mod_cast a.den_nz

theorem qadd_eq (a b : ℚ) : qadd a b = a + b := by
  rw [qadd, Rat.mkRat_eq_div]
  push_cast
  conv_rhs => rw [← Rat.num_div_den a, ← Rat.num_div_den b]
  rw [div_add_div _ _ (qden_ne a) (qden_ne b)]
  ring_nf

theorem qsub_eq (a b : ℚ) : qsub a b = a - b := by
  rw [qsub, Rat.mkRat_eq_div]
  push_cast
  conv_rhs => rw [← Rat.num_div_den a, ← Rat.num_div_den b]
  rw [div_sub_div _ _ (qden_ne a) (qden_ne b)]
  ring_nf

theorem qmul_eq (a b : ℚ) : qmul a b = a * b := by
  rw [qmul, Rat.mkRat_eq_div]
  push_cast
  conv_rhs => rw [← Rat.num_div_den a, ← Rat.num_div_den b]
  rw [div_mul_div_comm]

/-- JavaScript regex word character `\w` = `[A-Za-z0-9_]`. -/
def isWordChar (c : Nat) : Bool :=
  decide ((48 ≤ c ∧ c ≤ 57) ∨ (65 ≤ c ∧ c ≤ 90) ∨ (97 ≤ c ∧ c ≤ 122) ∨ c = 95)

/-- JavaScript regex whitespace `\s` (ASCII part: space, tab, LF, VT, FF, CR). -/
def isSpaceChar (c : Nat) : Bool :=
  decide (c = 32 ∨ c = 9 ∨ c = 10 ∨ c = 11 ∨ c = 12 ∨ c = 13)

/-- ASCII lower-casing of one code unit (`String.prototype.toLowerCase`
restricted to ASCII). -/
def asciiLower (c : Nat) : Nat :=
  if 65 ≤ c ∧ c ≤ 90 then c + 32 else c

/-- Embeds `title.toLowerCase()`. -/
def lowerStr (s : List Nat) : List Nat :=
  s.map asciiLower

/-- Embeds `.replace(/[^\w\s]/g, ' ')`: every character that is neither a word
character nor whitespace becomes a space. -/
def despecial (s : List Nat) : List Nat :=
  s.map (fun c => if isWordChar c || isSpaceChar c then c else 32)

/-- Worker for `.replace(/\s+/g, ' ')`; the flag records whether the
previous character belonged to a whitespace run already replaced. -/
def collapseAux : Bool → List Nat → List Nat
  | _, [] => []
  | prevSpace, c :: cs =>
    if isSpaceChar c then
      if prevSpace then collapseAux true cs else 32 :: collapseAux true cs
    else c :: collapseAux false cs

/-- Embeds `.replace(/\s+/g, ' ')`: collapse every whitespace run to one space. -/
def collapseWs (s : List Nat) : List Nat :=
  collapseAux false s

/-- Worker for whole-word deletion: accumulates the current maximal run of
word characters and flushes it (dropping it when the predicate matches,
exactly like `.replace(/\b(tok|…)\b/g, '')`). -/
def removeWordsAux (p : List Nat → Bool) : List Nat → List Nat → List Nat
  | acc, [] => if p acc then [] else acc
  | acc, c :: cs =>
    if isWordChar c then removeWordsAux p (acc ++ [c]) cs
    else (if p acc then [] else acc) ++ c :: removeWordsAux p [] cs

/-- Embeds `.replace(/\b(tok|…)\b/g, '')` for a whole-word predicate `p`: since
`\b` separates `\w` from non-`\w`, the regex deletes exactly the maximal
word-character runs matching an alternative. -/
def removeWords (p : List Nat → Bool) (s : List Nat) : List Nat :=
  removeWordsAux p [] s

/-- The year alternative `(19|20)\d{2}` as a whole-word predicate. -/
def isYearWord : List Nat → Bool
  | [a, b, c, d] =>
    ((a == 49 && b == 57) || (a == 50 && b == 48)) &&
      (decide (48 ≤ c ∧ c ≤ 57)) && (decide (48 ≤ d ∧ d ≤ 57))
  | _ => false

/-- Quality tags stripped by `normalizeTitle` (matched case-insensitively). -/
def qualityWords : List (List Nat) :=
  [str "hdtv", str "1080p", str "720p", str "hd", str "4k", str "uhd",
   str "bluray", str "webrip", str "dvdrip"]

def isQualityWord (w : List Nat) : Bool :=
  qualityWords.contains (lowerStr w)

/-- Language tags stripped by `normalizeTitle`. -/
def langWords : List (List Nat) :=
  [str "dubbed", str "hindi", str "english", str "arabic", str "french",
   str "spanish"]

def isLangWord (w : List Nat) : Bool :=
  langWords.contains (lowerStr w)

/-- Series keywords stripped by `normalizeTitle`. -/
def seriesWords : List (List Nat) :=
  [str "complete", str "season", str "series", str "episode", str "ep"]

def isSeriesWord (w : List Nat) : Bool :=
  seriesWords.contains (lowerStr w)

/-- Drop trailing whitespace (the right half of `String.prototype.trim`). -/
def dropTrailingSpaces : List Nat → List Nat
  | [] => []
  | c :: cs =>
    let r := dropTrailingSpaces cs
    if r = [] ∧ isSpaceChar c then [] else c :: r

/-- Embeds `String.prototype.trim`. -/
def trimStr (s : List Nat) : List Nat :=
  dropTrailingSpaces (s.dropWhile isSpaceChar)

/-- Embeds `ContentMatcher.normalizeTitle` (src/unnamed/part_000 lines 20–31):
lower-case, replace specials by spaces, collapse whitespace, delete year
tokens, quality tags, language tags and series keywords as whole words,
then trim.  `if (!title) return ''` is the empty-string guard. -/
def normalizeTitle (title : List Nat) : List Nat :=
  if title = [] then []
  else
    trimStr (removeWords isSeriesWord (removeWords isLangWord
      (removeWords isQualityWord (removeWords isYearWord
        (collapseWs (despecial (lowerStr title)))))))

/-- Worker for `.split(/\s+/)`: `inSpace` records that the scanner stands
inside a whitespace run whose field has already been emitted. -/
def splitWsAux (inSpace : Bool) (acc : List Nat) : List Nat → List (List Nat)
  | [] => [acc]
  | c :: cs =>
    if isSpaceChar c then
      if inSpace then splitWsAux true acc cs
      else acc :: splitWsAux true [] cs
    else splitWsAux false (acc ++ [c]) cs

/-- Embeds `norm.split(/\s+/)`: fields between maximal whitespace runs (with the
JavaScript behaviour of an empty leading/trailing field). -/
def splitWs (s : List Nat) : List (List Nat) :=
  splitWsAux false [] s

/-- Embeds `norm.split(/\s+/).filter(w => w.length > 2)`. -/
def tokensOf (norm : List Nat) : List (List Nat) :=
  (splitWs norm).filter (fun w => decide (2 < w.length))

/-- Embeds `ContentMatcher.fuzzyMatch` (src/unnamed/part_000 lines 34–50).  The
`threshold` parameter of the source is computed into `useThreshold` but
never used by the body, so it is omitted. -/
def fuzzyMatch (title1 title2 : List Nat) : ℚ :=
  let norm1 := normalizeTitle title1
  let norm2 := normalizeTitle title2
  if norm1 = norm2 then 1
  else
    let words1 := tokensOf norm1
    let words2 := tokensOf norm2
    if words1 = [] ∨ words2 = [] then 0
    else
      mkRat ((words1.filter (fun w => words2.contains w)).length : ℤ)
        (Nat.max words1.length words2.length)

/-- Embeds `String.prototype.includes` on code-unit lists. -/
def isSubstr (pat : List Nat) : List Nat → Bool
  | [] => pat.isEmpty
  | c :: cs => pat.isPrefixOf (c :: cs) || isSubstr pat cs

/-- Embeds `ContentMatcher.extractQuality` (src/unnamed/part_000 lines 89–110):
case-insensitive substring checks in fixed priority order; empty (falsy)
titles short-circuit to `(0, 'SD')`, otherwise the default is `(3, 'HD')`. -/
def extractQuality (title : List Nat) : Nat × List Nat :=
  if title = [] then (0, str "SD")
  else
    let titleLower := lowerStr title
    if isSubstr (str "4k") titleLower || isSubstr (str "2160p") titleLower ||
        isSubstr (str "uhd") titleLower then (8, str "4K")
    else if isSubstr (str "1080p") titleLower || isSubstr (str "fhd") titleLower then
      (6, str "1080p")
    else if isSubstr (str "720p") titleLower || isSubstr (str "hd") titleLower then
      (4, str "720p")
    else if isSubstr (str "480p") titleLower || isSubstr (str "sd") titleLower then
      (2, str "480p")
    else (3, str "HD")

/-- Embeds `ContentMatcher.extractSource` (src/unnamed/part_000 lines 113–139). -/
def extractSource (title : List Nat) : Nat × List Nat :=
  if title = [] then (0, str "Unknown")
  else
    let titleLower := lowerStr title
    if isSubstr (str "bluray") titleLower || isSubstr (str "blu-ray") titleLower then
      (10, str "BluRay")
    else if isSubstr (str "remux") titleLower then (9, str "Remux")
    else if isSubstr (str "web-dl") titleLower || isSubstr (str "webdl") titleLower then
      (8, str "WEB-DL")
    else if isSubstr (str "webrip") titleLower then (6, str "WEBRip")
    else if isSubstr (str "hdtv") titleLower then (4, str "HDTV")
    else if isSubstr (str "dvdrip") titleLower then (3, str "DVDRip")
    else (5, str "Digital")

/-- Integer value of the four digits of a year token. -/
def yearValue (a b c d : Nat) : Int :=
  (((a - 48) * 1000 + (b - 48) * 100 + (c - 48) * 10 + (d - 48) : Nat) : Int)

/-- Does `\b(19|20)\d{2}\b` match at the front of the list (the `\b` on the
left being checked by the caller)? -/
def yearAt : List Nat → Option Int
  | a :: b :: c :: d :: rest =>
    if ((a == 49 && b == 57) || (a == 50 && b == 48)) &&
        (decide (48 ≤ c ∧ c ≤ 57)) && (decide (48 ≤ d ∧ d ≤ 57)) &&
        (match rest with | [] => true | e :: _ => !isWordChar e) then
      some (yearValue a b c d)
    else none
  | _ => none

/-- Left-to-right scan for the first `\b(19|20)\d{2}\b` match; the flag
records whether the previous character was a word character (so no `\b`). -/
def findYearScan (prevIsWord : Bool) : List Nat → Option Int
  | [] => none
  | c :: cs =>
    if prevIsWord then findYearScan (isWordChar c) cs
    else
      match yearAt (c :: cs) with
      | some y => some y
      | none => findYearScan (isWordChar c) cs

/-- Embeds `ContentMatcher.extractYear` (src/unnamed/part_000 lines 142–146). -/
def extractYear (title : List Nat) : Option Int :=
  if title = [] then none else findYearScan false title

/-- An item of the content library.  The source reads only `item.name` and
`item.title`, through the falsy-fallback chain `item.name || item.title || ''`. -/
structure LibraryEntry where
  name : Option (List Nat)
  title : Option (List Nat)
deriving DecidableEq

/-- JavaScript `x || y` for a possibly absent, possibly empty string. -/
def jsOr (v : Option (List Nat)) (d : List Nat) : List Nat :=
  match v with
  | some s => if s = [] then d else s
  | none => d

/-- Embeds `item.name || item.title || ''`. -/
def displayTitle (e : LibraryEntry) : List Nat :=
  jsOr e.name (jsOr e.title [])

/-- One element of the array built by `findAllMatches`. -/
structure MatchCandidate where
  item : LibraryEntry
  titleScore : ℚ
  yearBonus : ℚ
  finalScore : ℚ
  qualityScore : Nat
  qualityTag : List Nat
  sourceScore : Nat
  sourceTag : List Nat
  year : Option Int
  title : List Nat
deriving DecidableEq

/-- Embeds `this.matchingThreshold = 0.8`. -/
def matchingThreshold : ℚ := mkRat 8 10

/-- The year-bonus computation of `findAllMatches` (src/unnamed/part_000
lines 162–172): `if (targetYear && itemYear)` is the both-present guard,
an exact match gives `0.1`, otherwise `Math.max(-0.05, -yearDiff * 0.01)`
for `yearDiff = Math.abs(itemYear - targetYear)`. -/
def yearBonus (targetYear itemYear : Option Int) : ℚ :=
  match targetYear, itemYear with
  | some targetY, some itemY =>
    if itemY = targetY then mkRat 1 10
    else
      let yearDiff : ℚ := (((itemY - targetY).natAbs : ℕ) : ℚ)
      max (-(mkRat 5 100)) (qmul (-yearDiff) (mkRat 1 100))
  | _, _ => 0

/-- The sort comparator of `findAllMatches` (src/unnamed/part_000 lines
192–203) read as "`a` may be placed before `b`", i.e. `comparator(a,b) ≤ 0`:
final scores differing by more than `0.05` are compared directly, otherwise
quality then source decide. -/
def matchLe (a b : MatchCandidate) : Bool :=
  if mkRat 5 100 < |qsub a.finalScore b.finalScore| then
    decide (b.finalScore ≤ a.finalScore)
  else if a.qualityScore ≠ b.qualityScore then
    decide (b.qualityScore ≤ a.qualityScore)
  else
    decide (b.sourceScore ≤ a.sourceScore)

/-- Insert into a sorted list: the element moves past every head it is not
`le`-allowed to precede. -/
def insertSorted {α : Type} (le : α → α → Bool) (x : α) : List α → List α
  | [] => [x]
  | y :: ys => if le x y then x :: y :: ys else y :: insertSorted le x ys

/-- Stable insertion sort modelling `Array.prototype.sort(comparator)` for
the (antisymmetric) comparator above. -/
def sortByCmp {α : Type} (le : α → α → Bool) : List α → List α
  | [] => []
  | x :: xs => insertSorted le x (sortByCmp le xs)

/-- Embeds `ContentMatcher.findAllMatches` (src/unnamed/part_000 lines 149–240):
collect every library entry whose fuzzy score reaches the threshold,
decorate it with quality/source/year data and the year-adjusted final
score, and sort by the three-level comparator.  The `contentType`
parameter of the source is never read by the body and is omitted. -/
def findAllMatches (targetTitle : List Nat) (targetYear : Option Int)
    (contentLibrary : List LibraryEntry) : List MatchCandidate :=
  sortByCmp matchLe (contentLibrary.filterMap (fun item =>
    let itemTitle := displayTitle item
    let score := fuzzyMatch targetTitle itemTitle
    if matchingThreshold ≤ score then
      let qualityInfo := extractQuality itemTitle
      let sourceInfo := extractSource itemTitle
      let itemYear := extractYear itemTitle
      let yb := yearBonus targetYear itemYear
      some
        { item := item
          titleScore := score
          yearBonus := yb
          finalScore := qadd score yb
          qualityScore := qualityInfo.1
          qualityTag := qualityInfo.2
          sourceScore := sourceInfo.1
          sourceTag := sourceInfo.2
          year := itemYear
          title := itemTitle }
    else none))

/-- Embeds `ContentMatcher.findBestMatch` of src/unnamed/part_000 (lines 243–253,
the current version): first element of the full ranking with a null
target year. -/
def findBestMatch (targetTitle : List Nat) (contentLibrary : List LibraryEntry) :
    Option LibraryEntry × ℚ :=
  match findAllMatches targetTitle none contentLibrary with
  | [] => (none, 0)
  | best :: _ => (some best.item, best.finalScore)

/-- Loop of the legacy `ContentMatcher.findBestMatch` of src/addon.js
(lines 89–108): keep the entry with the strictly highest score that also
reaches the threshold. -/
def findBestMatchLegacyAux (targetTitle : List Nat) :
    List LibraryEntry → Option LibraryEntry × ℚ → Option LibraryEntry × ℚ
  | [], acc => acc
  | item :: rest, (bestMatch, bestScore) =>
    let score := fuzzyMatch targetTitle (displayTitle item)
    if bestScore < score ∧ matchingThreshold ≤ score then
      findBestMatchLegacyAux targetTitle rest (some item, score)
    else
      findBestMatchLegacyAux targetTitle rest (bestMatch, bestScore)

/-- The legacy `findBestMatch` of src/addon.js. -/
def findBestMatchLegacy (targetTitle : List Nat) (contentLibrary : List LibraryEntry) :
    Option LibraryEntry × ℚ :=
  findBestMatchLegacyAux targetTitle contentLibrary (none, 0)

/-- The record cached by `getOfficialTitle` from OMDb (`title`, `year`;
`type`/`plot` are never read by the matching paths; the source parses
`omdbData.year` with `parseInt`, modelled as an already-parsed
optional integer). -/
structure OmdbData where
  title : List Nat
  year : Option Int
deriving DecidableEq

/-- Outcome of one OMDb HTTP request: a successful lookup, an error
response (`data.Response !== 'True'`), or a thrown network error. -/
inductive OmdbOutcome where
  | success (d : OmdbData)
  | apiError
  | netFail
deriving DecidableEq

/-- Embeds `Map.prototype.set`: replace any binding of the key. -/
def mapSet {α : Type} (k : List Nat) (v : α) (m : List (List Nat × α)) :
    List (List Nat × α) :=
  (k, v) :: m.filter (fun p => !(p.1 == k))

/-- One entry of `this.realTimeCache`. -/
structure CacheEntry where
  result : List MatchCandidate
  timestamp : Nat
deriving DecidableEq

/-- The mutable state read and written by `searchMovieByImdbId`: the OMDb
cache of `ContentMatcher.getOfficialTitle`, the orchestrator's
`realTimeCache`, and the movie library `this.movies`. -/
structure OrchestratorState where
  omdbCache : List (List Nat × Option OmdbData)
  realTimeCache : List (List Nat × CacheEntry)
  movies : List LibraryEntry
deriving DecidableEq

/-- Result of `getOfficialTitle`: the returned data, the updated OMDb
cache, and whether an HTTP request to the metadata resolver was made. -/
structure TitleLookup where
  data : Option OmdbData
  cache : List (List Nat × Option OmdbData)
  httpCalled : Bool
deriving DecidableEq

/-- Embeds `ContentMatcher.getOfficialTitle` (src/unnamed/part_000 lines 53–86):
serve from `omdbCache` when present (error responses were cached as
`null`); without an API key return `null`; otherwise perform the request,
caching successes and error responses but not network failures. -/
def getOfficialTitle (api : List Nat → OmdbOutcome) (hasApiKey : Bool)
    (omdbCache : List (List Nat × Option OmdbData)) (imdbId : List Nat) :
    TitleLookup :=
  match omdbCache.lookup imdbId with
  | some v => { data := v, cache := omdbCache, httpCalled := false }
  | none =>
    if !hasApiKey then { data := none, cache := omdbCache, httpCalled := false }
    else
      match api imdbId with
      | .success d =>
        { data := some d, cache := mapSet imdbId (some d) omdbCache, httpCalled := true }
      | .apiError =>
        { data := none, cache := mapSet imdbId none omdbCache, httpCalled := true }
      | .netFail => { data := none, cache := omdbCache, httpCalled := false }

/-- Result of one `searchMovieByImdbId` call: the returned matches, the
state afterwards, whether the metadata resolver was contacted over HTTP,
and whether a ranking pass over the movie library ran. -/
structure MovieSearch where
  result : List MatchCandidate
  state : OrchestratorState
  httpCalled : Bool
  libraryScanned : Bool

/-- Embeds `searchMovieByImdbId` (src/unnamed/part_000 lines 966–1019).  A cache
entry younger than 3600000 ms is served directly; otherwise the canonical
title is resolved (failing soft to `[]`), an empty movie library is
refreshed via `updateData` (modelled by the injected `refreshLib`), the
library is ranked, and only a non-empty result is written back to
`realTimeCache` (capped at the top 5). -/
def searchMovieByImdbId (api : List Nat → OmdbOutcome) (hasApiKey : Bool)
    (refreshLib : List LibraryEntry) (st : OrchestratorState)
    (imdbId : List Nat) (now : Nat) : MovieSearch :=
  let fresh :=
    match st.realTimeCache.lookup imdbId with
    | some cached =>
      if now - cached.timestamp < 3600000 then some cached.result else none
    | none => none
  match fresh with
  | some r => { result := r, state := st, httpCalled := false, libraryScanned := false }
  | none =>
    let lookup := getOfficialTitle api hasApiKey st.omdbCache imdbId
    match lookup.data with
    | none =>
      { result := []
        state := { st with omdbCache := lookup.cache }
        httpCalled := lookup.httpCalled
        libraryScanned := false }
    | some omdbData =>
      let movies := if st.movies = [] then refreshLib else st.movies
      let matchList := findAllMatches omdbData.title omdbData.year movies
      if 0 < matchList.length then
        let topMatches := matchList.take 5
        { result := topMatches
          state :=
            { omdbCache := lookup.cache
              realTimeCache :=
                mapSet imdbId { result := topMatches, timestamp := now } st.realTimeCache
              movies := movies }
          httpCalled := lookup.httpCalled
          libraryScanned := true }
      else
        { result := []
          state := { st with omdbCache := lookup.cache, movies := movies }
          httpCalled := lookup.httpCalled
          libraryScanned := true }

theorem mem_insertSorted {α : Type} (le : α → α → Bool) (x : α) (l : List α) (a : α) :
    a ∈ insertSorted le x l ↔ a = x ∨ a ∈ l := by
  induction l with
  | nil => simp [insertSorted]
  | cons y ys ih =>
    simp only [insertSorted]
    split
    · simp [List.mem_cons]
    · simp only [List.mem_cons, ih]
      tauto

theorem mem_sortByCmp {α : Type} (le : α → α → Bool) (l : List α) (a : α) :
    a ∈ sortByCmp le l ↔ a ∈ l := by
  induction l with
  | nil => simp [sortByCmp]
  | cons y ys ih => simp [sortByCmp, mem_insertSorted, ih]

theorem length_insertSorted {α : Type} (le : α → α → Bool) (x : α) (l : List α) :
    (insertSorted le x l).length = l.length + 1 := by
  induction l with
  | nil => simp [insertSorted]
  | cons y ys ih =>
    simp only [insertSorted]
    split <;> simp [ih]

theorem length_sortByCmp {α : Type} (le : α → α → Bool) (l : List α) :
    (sortByCmp le l).length = l.length := by
  induction l with
  | nil => rfl
  | cons y ys ih => simp [sortByCmp, length_insertSorted, ih]

theorem sortByCmp_eq_nil {α : Type} (le : α → α → Bool) (l : List α) :
    sortByCmp le l = [] ↔ l = [] := by
  constructor
  · intro h
    have := length_sortByCmp le l
    rw [h] at this
    exact List.length_eq_zero.mp this.symm
  · intro h
    rw [h]
    rfl

theorem head_insertSorted {α : Type} (le : α → α → Bool) (x : α) (l : List α) :
    (insertSorted le x l).head? = some x ∨ (insertSorted le x l).head? = l.head? := by
  cases l with
  | nil => left; rfl
  | cons y ys =>
    simp only [insertSorted]
    split
    · left; rfl
    · right; rfl

theorem chain_insertSorted {α : Type} (le : α → α → Bool)
    (htot : ∀ a b, le a b = true ∨ le b a = true) (x : α) (l : List α)
    (h : l.Chain' (fun a b => le a b = true)) :
    (insertSorted le x l).Chain' (fun a b => le a b = true) := by
  induction l with
  | nil => simp [insertSorted]
  | cons y ys ih =>
    simp only [insertSorted]
    split
    · rename_i hxy
      exact List.chain'_cons'.mpr ⟨fun b hb => by simp at hb; rw [hb] at hxy; exact hxy, h⟩
    · rename_i hxy
      have hyx : le y x = true := by
        rcases htot x y with h1 | h1
        · exact absurd h1 hxy
        · exact h1
      rw [List.chain'_cons'] at h
      refine List.chain'_cons'.mpr ⟨?_, ih h.2⟩
      intro b hb
      rcases head_insertSorted le x ys with he | he
      · rw [he] at hb
        simp at hb
        exact hb ▸ hyx
      · rw [he] at hb
        exact h.1 b hb

theorem chain_sortByCmp {α : Type} (le : α → α → Bool)
    (htot : ∀ a b, le a b = true ∨ le b a = true) (l : List α) :
    (sortByCmp le l).Chain' (fun a b => le a b = true) := by
  induction l with
  | nil => simp [sortByCmp]
  | cons y ys ih => exact chain_insertSorted le htot y _ ih

theorem matchLe_total (a b : MatchCandidate) :
    matchLe a b = true ∨ matchLe b a = true := by
  unfold matchLe
  have habs : qsub b.finalScore a.finalScore = -(qsub a.finalScore b.finalScore) := by
    rw [qsub_eq, qsub_eq]
    ring
  rw [habs, abs_neg]
  by_cases hband : mkRat 5 100 < |qsub a.finalScore b.finalScore|
  · rw [if_pos hband, if_pos hband]
    rcases le_total b.finalScore a.finalScore with h | h
    · left; simpa using h
    · right; simpa using h
  · rw [if_neg hband, if_neg hband]
    by_cases hq : a.qualityScore = b.qualityScore
    · rw [if_neg (by omega), if_neg (by omega)]
      rcases Nat.le_total b.sourceScore a.sourceScore with h | h
      · left; simpa using h
      · right; simpa using h
    · rw [if_pos hq, if_pos (by omega)]
      rcases Nat.le_total b.qualityScore a.qualityScore with h | h
      · left; simpa using h
      · right; simpa using h

theorem mkRat_5_100 : mkRat 5 100 = (5 : ℚ) / 100 := by
  rw [Rat.mkRat_eq_div]
  norm_num

theorem matchingThreshold_eq : matchingThreshold = (8 : ℚ) / 10 := by
  rw [matchingThreshold, Rat.mkRat_eq_div]
  norm_num

theorem matchLe_spec (a b : MatchCandidate) (h : matchLe a b = true) :
    ((5 : ℚ) / 100 < |a.finalScore - b.finalScore| ∧ b.finalScore ≤ a.finalScore) ∨
      (|a.finalScore - b.finalScore| ≤ (5 : ℚ) / 100 ∧ b.qualityScore ≤ a.qualityScore) ∨
      (a.qualityScore = b.qualityScore ∧ b.sourceScore ≤ a.sourceScore) := by
  unfold matchLe at h
  rw [qsub_eq, mkRat_5_100] at h
  by_cases hband : (5 : ℚ) / 100 < |a.finalScore - b.finalScore|
  · rw [if_pos hband] at h
    left
    exact ⟨hband, by simpa using h⟩
  · rw [if_neg hband] at h
    right
    by_cases hq : a.qualityScore = b.qualityScore
    · rw [if_neg (by omega)] at h
      right
      exact ⟨hq, by simpa using h⟩
    · rw [if_pos hq] at h
      left
      exact ⟨le_of_not_lt hband, by simpa using h⟩

theorem mem_findAllMatches_iff (targetTitle : List Nat) (targetYear : Option Int)
    (lib : List LibraryEntry) (c : MatchCandidate) :
    c ∈ findAllMatches targetTitle targetYear lib ↔
      ∃ item ∈ lib,
        matchingThreshold ≤ fuzzyMatch targetTitle (displayTitle item) ∧
        c =
          { item := item
            titleScore := fuzzyMatch targetTitle (displayTitle item)
            yearBonus := yearBonus targetYear (extractYear (displayTitle item))
            finalScore :=
              qadd (fuzzyMatch targetTitle (displayTitle item))
                (yearBonus targetYear (extractYear (displayTitle item)))
            qualityScore := (extractQuality (displayTitle item)).1
            qualityTag := (extractQuality (displayTitle item)).2
            sourceScore := (extractSource (displayTitle item)).1
            sourceTag := (extractSource (displayTitle item)).2
            year := extractYear (displayTitle item)
            title := displayTitle item } := by
  rw [findAllMatches, mem_sortByCmp, List.mem_filterMap]
  constructor
  · rintro ⟨item, hitem, heq⟩
    refine ⟨item, hitem, ?_⟩
    simp only at heq
    split at heq
    · rename_i hth
      exact ⟨hth, (Option.some_injective _ heq).symm⟩
    · exact absurd heq (by simp)
  · rintro ⟨item, hitem, hth, hc⟩
    refine ⟨item, hitem, ?_⟩
    simp only
    rw [if_pos hth, hc]

/-- C10: whenever two titles normalize to the same string — including two
different raw titles normalizing to the empty string, such as "1080p" and
"2023" — `fuzzyMatch` short-circuits and returns exactly 1. -/
theorem c10_equal_normalization_scores_one (a b : List Nat)
    (h : normalizeTitle a = normalizeTitle b) : fuzzyMatch a b = 1 := by
  rw [fuzzyMatch]
  simp [h]

theorem c10_witness :
    normalizeTitle (str "1080p") = normalizeTitle (str "2023") ∧
      fuzzyMatch (str "1080p") (str "2023") = 1 :=
  ⟨by decide, c10_equal_normalization_scores_one (str "1080p") (str "2023") (by decide)⟩

/-- C2: every candidate returned by `findAllMatches` carries a
`titleScore` of at least the matching threshold 0.8; lower-scoring
entries are discarded before ranking. -/
theorem c2_titleScore_meets_threshold (targetTitle : List Nat)
    (targetYear : Option Int) (lib : List LibraryEntry) (c : MatchCandidate)
    (h : c ∈ findAllMatches targetTitle targetYear lib) :
    (8 : ℚ) / 10 ≤ c.titleScore := by
  rcases (mem_findAllMatches_iff targetTitle targetYear lib c).mp h with
    ⟨item, _, hth, hc⟩
  rw [hc]
  rw [matchingThreshold_eq] at hth
  exact hth

theorem c2_witness :
    ({ item := { name := some (str "dark knight"), title := none }
       titleScore := 1
       yearBonus := 0
       finalScore := 1
       qualityScore := 3
       qualityTag := str "HD"
       sourceScore := 5
       sourceTag := str "Digital"
       year := none
       title := str "dark knight" } : MatchCandidate) ∈
        findAllMatches (str "dark knight") none
          [{ name := some (str "dark knight"), title := none }] ∧
      (8 : ℚ) / 10 ≤
        ({ item := { name := some (str "dark knight"), title := none }
           titleScore := 1
           yearBonus := 0
           finalScore := 1
           qualityScore := 3
           qualityTag := str "HD"
           sourceScore := 5
           sourceTag := str "Digital"
           year := none
           title := str "dark knight" } : MatchCandidate).titleScore :=
  ⟨by decide, c2_titleScore_meets_threshold (str "dark knight") none
    [{ name := some (str "dark knight"), title := none }] _ (by decide)⟩

/-- C3: the ranking returned by `findAllMatches` satisfies the adjacent-pair
comparator contract: each neighbouring pair is ordered by final score when
the scores differ by more than 0.05, otherwise by quality tier, otherwise
(on a quality tie) by source tier. -/
theorem c3_ranking_adjacent_sorted (targetTitle : List Nat)
    (targetYear : Option Int) (lib : List LibraryEntry) :
    (findAllMatches targetTitle targetYear lib).Chain'
      (fun a b =>
        ((5 : ℚ) / 100 < |a.finalScore - b.finalScore| ∧ b.finalScore ≤ a.finalScore) ∨
          (|a.finalScore - b.finalScore| ≤ (5 : ℚ) / 100 ∧
            b.qualityScore ≤ a.qualityScore) ∨
          (a.qualityScore = b.qualityScore ∧ b.sourceScore ≤ a.sourceScore)) := by
  have h := chain_sortByCmp matchLe matchLe_total
    (lib.filterMap (fun item =>
      let itemTitle := displayTitle item
      let score := fuzzyMatch targetTitle itemTitle
      if matchingThreshold ≤ score then
        let qualityInfo := extractQuality itemTitle
        let sourceInfo := extractSource itemTitle
        let itemYear := extractYear itemTitle
        let yb := yearBonus targetYear itemYear
        some
          { item := item
            titleScore := score
            yearBonus := yb
            finalScore := qadd score yb
            qualityScore := qualityInfo.1
            qualityTag := qualityInfo.2
            sourceScore := sourceInfo.1
            sourceTag := sourceInfo.2
            year := itemYear
            title := itemTitle }
      else none))
  exact h.imp matchLe_spec

/-- C8: ranking is read-only — every candidate produced by `findAllMatches`
references an entry of the input library unchanged, and the entry selected
by `findBestMatch` is likewise an element of the input library (the pure
embedding carries the library through untouched). -/
theorem c8_library_read_only (targetTitle : List Nat) (targetYear : Option Int)
    (lib : List LibraryEntry) :
    (∀ c ∈ findAllMatches targetTitle targetYear lib, c.item ∈ lib) ∧
      (∀ e s, findBestMatch targetTitle lib = (some e, s) → e ∈ lib) := by
  have hmem : ∀ y (c : MatchCandidate), c ∈ findAllMatches targetTitle y lib → c.item ∈ lib := by
    intro y c hc
    rcases (mem_findAllMatches_iff targetTitle y lib c).mp hc with ⟨item, hitem, _, hc⟩
    rw [hc]
    exact hitem
  constructor
  · intro c hc
    exact hmem targetYear c hc
  · intro e s h
    rw [findBestMatch] at h
    rcases hall : findAllMatches targetTitle none lib with _ | ⟨best, rest⟩
    · rw [hall] at h
      simp at h
    · rw [hall] at h
      simp only [Prod.mk.injEq, Option.some.injEq] at h
      rw [← h.1]
      exact hmem none best (hall ▸ List.mem_cons_self best rest)

theorem c8_witness :
    (∀ c ∈ findAllMatches (str "dark knight") none
        [{ name := some (str "dark knight"), title := none }],
      c.item ∈ [({ name := some (str "dark knight"), title := none } : LibraryEntry)]) ∧
      (∀ e s, findBestMatch (str "dark knight")
          [{ name := some (str "dark knight"), title := none }] = (some e, s) →
        e ∈ [({ name := some (str "dark knight"), title := none } : LibraryEntry)]) :=
  c8_library_read_only (str "dark knight") none
    [{ name := some (str "dark knight"), title := none }]

theorem matchingThreshold_pos : (0 : ℚ) < matchingThreshold := by
  rw [matchingThreshold_eq]
  norm_num

theorem legacyAux_some_ne_none (targetTitle : List Nat) (lib : List LibraryEntry)
    (e : LibraryEntry) (bs : ℚ) :
    (findBestMatchLegacyAux targetTitle lib (some e, bs)).1 ≠ none := by
  induction lib generalizing e bs with
  | nil => simp [findBestMatchLegacyAux]
  | cons item rest ih =>
    rw [findBestMatchLegacyAux]
    split
    · exact ih _ _
    · exact ih _ _

theorem legacy_none_iff (targetTitle : List Nat) (lib : List LibraryEntry) :
    (findBestMatchLegacyAux targetTitle lib (none, 0)).1 = none ↔
      ∀ item ∈ lib, fuzzyMatch targetTitle (displayTitle item) < matchingThreshold := by
  induction lib with
  | nil => simp [findBestMatchLegacyAux]
  | cons item rest ih =>
    rw [findBestMatchLegacyAux]
    split
    · rename_i hcond
      constructor
      · intro h
        exact absurd h (legacyAux_some_ne_none _ _ _ _)
      · intro h
        have := h item (List.mem_cons_self item rest)
        exact absurd hcond (by simp; intro; linarith)
    · rename_i hcond
      rw [ih]
      constructor
      · intro h
        intro x hx
        rcases List.mem_cons.mp hx with hx | hx
        · subst hx
          by_contra hge
          push_neg at hge
          exact hcond ⟨lt_of_lt_of_le matchingThreshold_pos hge, hge⟩
        · exact h x hx
      · intro h
        exact fun x hx => h x (List.mem_cons_of_mem item hx)

theorem findAllMatches_eq_nil_iff (targetTitle : List Nat) (targetYear : Option Int)
    (lib : List LibraryEntry) :
    findAllMatches targetTitle targetYear lib = [] ↔
      ∀ item ∈ lib, fuzzyMatch targetTitle (displayTitle item) < matchingThreshold := by
  rw [findAllMatches, sortByCmp_eq_nil, List.filterMap_eq_nil_iff]
  constructor
  · intro h item hitem
    have := h item hitem
    simp only at this
    by_contra hge
    push_neg at hge
    rw [if_pos hge] at this
    exact absurd this (by simp)
  · intro h item hitem
    simp only
    rw [if_neg (not_le.mpr (h item hitem))]

/-- C9 (amended): the legacy `findBestMatch` of src/addon.js and the current
`findBestMatch` agree on whether a match exists, but not on which entry is
selected (see the counterexample). -/
theorem c9_existence_agreement (targetTitle : List Nat) (lib : List LibraryEntry) :
    ((findBestMatchLegacy targetTitle lib).1 = none ↔
      (findBestMatch targetTitle lib).1 = none) := by
  rw [findBestMatchLegacy, legacy_none_iff]
  rw [findBestMatch]
  rcases hall : findAllMatches targetTitle none lib with _ | ⟨best, rest⟩
  · simp only [Option.some.injEq]
    rw [← findAllMatches_eq_nil_iff targetTitle none lib, hall]
    simp
  · simp only [Option.some.injEq]
    constructor
    · intro h
      have := (findAllMatches_eq_nil_iff targetTitle none lib).mpr h
      rw [hall] at this
      exact absurd this (by simp)
    · intro h
      exact absurd h (by simp)

/-- C9's counterexample: with a tolerance-band tie (two exact-title matches,
one carrying a 4K tag), the legacy routine keeps the first strict maximum
while the current routine promotes the higher-quality entry, so they select
different library entries. -/
theorem c9_counterexample :
    (findBestMatchLegacy (str "dark knight")
        [{ name := some (str "dark knight"), title := none },
         { name := some (str "dark knight 4k"), title := none }]).1 ≠
      (findBestMatch (str "dark knight")
        [{ name := some (str "dark knight"), title := none },
         { name := some (str "dark knight 4k"), title := none }]).1 := by
  decide

/-- C6: the year adjustment of `findAllMatches`: +0.10 for an exact year
match, −0.01 per year of difference capped at −0.05 (so −0.03 at distance 3
and −0.05 at any distance of five or more years), and 0 when either side
is missing. -/
theorem c6_year_adjustment :
    (∀ y : Int, yearBonus (some y) (some y) = 1 / 10) ∧
      (∀ targetY itemY : Int, (itemY - targetY).natAbs = 3 →
        yearBonus (some targetY) (some itemY) = -(3 / 100)) ∧
      (∀ targetY itemY : Int, 5 ≤ (itemY - targetY).natAbs →
        yearBonus (some targetY) (some itemY) = -(5 / 100)) ∧
      (∀ oy, yearBonus none oy = 0) ∧
      (∀ oy, yearBonus oy none = 0) := by
  refine ⟨?_, ?_, ?_, ?_, ?_⟩
  · intro y
    rw [yearBonus]
    rw [if_pos rfl, Rat.mkRat_eq_div]
    norm_num
  · intro targetY itemY h
    rw [yearBonus]
    have hne : itemY ≠ targetY := by
      intro he
      rw [he] at h
      simp at h
    rw [if_neg hne]
    simp only [h]
    rw [qmul_eq, Rat.mkRat_eq_div, Rat.mkRat_eq_div]
    push_cast
    rw [max_eq_right (by norm_num)]
    norm_num
  · intro targetY itemY h
    rw [yearBonus]
    have hne : itemY ≠ targetY := by
      intro he
      rw [he] at h
      simp at h
    rw [if_neg hne]
    simp only
    rw [qmul_eq, Rat.mkRat_eq_div, Rat.mkRat_eq_div]
    push_cast
    have h5 : (5 : ℚ) ≤ ((itemY - targetY).natAbs : ℚ) := by
      exact_mod_cast h
    rw [max_eq_left (by linarith)]
  · intro oy
    simp [yearBonus]
  · intro oy
    cases oy <;> simp [yearBonus]

theorem c6_witness :
    yearBonus (some 2020) (some 2020) = 1 / 10 ∧
      yearBonus (some 2020) (some 2023) = -(3 / 100) ∧
      yearBonus (some 2020) (some 2030) = -(5 / 100) ∧
      yearBonus none (some 2030) = 0 ∧
      yearBonus (some 2020) none = 0 :=
  ⟨c6_year_adjustment.1 2020,
   c6_year_adjustment.2.1 2020 2023 (by decide),
   c6_year_adjustment.2.2.1 2020 2030 (by decide),
   c6_year_adjustment.2.2.2.1 (some 2030),
   c6_year_adjustment.2.2.2.2 (some 2020)⟩

/-- C7's counterexample: the empty title does not fall through to the
`(3, "HD")` default — the falsy guard returns `(0, "SD")` instead. -/
theorem c7_counterexample : extractQuality [] ≠ (3, str "HD") := by decide

/-- C7 (amended): for every non-empty title the case-insensitive substring
checks run in the fixed priority order 4k/2160p/uhd, 1080p/fhd, 720p/hd,
480p/sd with default `(3, "HD")` and the first matching rule winning; the
empty title instead returns `(0, "SD")` through the falsy guard. -/
theorem c7_quality_priority_order :
    extractQuality [] = (0, str "SD") ∧
      ∀ t, t ≠ [] →
        (((isSubstr (str "4k") (lowerStr t) || isSubstr (str "2160p") (lowerStr t) ||
            isSubstr (str "uhd") (lowerStr t)) = true →
          extractQuality t = (8, str "4K")) ∧
        ((isSubstr (str "4k") (lowerStr t) || isSubstr (str "2160p") (lowerStr t) ||
            isSubstr (str "uhd") (lowerStr t)) = false →
          (isSubstr (str "1080p") (lowerStr t) || isSubstr (str "fhd") (lowerStr t)) = true →
          extractQuality t = (6, str "1080p")) ∧
        ((isSubstr (str "4k") (lowerStr t) || isSubstr (str "2160p") (lowerStr t) ||
            isSubstr (str "uhd") (lowerStr t)) = false →
          (isSubstr (str "1080p") (lowerStr t) || isSubstr (str "fhd") (lowerStr t)) = false →
          (isSubstr (str "720p") (lowerStr t) || isSubstr (str "hd") (lowerStr t)) = true →
          extractQuality t = (4, str "720p")) ∧
        ((isSubstr (str "4k") (lowerStr t) || isSubstr (str "2160p") (lowerStr t) ||
            isSubstr (str "uhd") (lowerStr t)) = false →
          (isSubstr (str "1080p") (lowerStr t) || isSubstr (str "fhd") (lowerStr t)) = false →
          (isSubstr (str "720p") (lowerStr t) || isSubstr (str "hd") (lowerStr t)) = false →
          (isSubstr (str "480p") (lowerStr t) || isSubstr (str "sd") (lowerStr t)) = true →
          extractQuality t = (2, str "480p")) ∧
        ((isSubstr (str "4k") (lowerStr t) || isSubstr (str "2160p") (lowerStr t) ||
            isSubstr (str "uhd") (lowerStr t)) = false →
          (isSubstr (str "1080p") (lowerStr t) || isSubstr (str "fhd") (lowerStr t)) = false →
          (isSubstr (str "720p") (lowerStr t) || isSubstr (str "hd") (lowerStr t)) = false →
          (isSubstr (str "480p") (lowerStr t) || isSubstr (str "sd") (lowerStr t)) = false →
          extractQuality t = (3, str "HD"))) := by
  constructor
  · decide
  · intro t ht
    rw [extractQuality, if_neg ht]
    refine ⟨?_, ?_, ?_, ?_, ?_⟩
    · intro h1
      simp only [h1, if_true]
    · intro h1 h2
      simp only [h1, h2]
      simp
    · intro h1 h2 h3
      simp only [h1, h2, h3]
      simp
    · intro h1 h2 h3 h4
      simp only [h1, h2, h3, h4]
      simp
    · intro h1 h2 h3 h4
      simp only [h1, h2, h3, h4]
      simp

theorem c7_witness :
    extractQuality (str "Movie 2160P x") = (8, str "4K") ∧
      extractQuality (str "dark knight") = (3, str "HD") :=
  ⟨(c7_quality_priority_order.2 (str "Movie 2160P x") (by decide)).1 (by decide),
   (c7_quality_priority_order.2 (str "dark knight") (by decide)).2.2.2.2
     (by decide) (by decide) (by decide) (by decide)⟩

/-- C5's counterexample: a token repeated on one side is counted once per
occurrence, so the overlap count depends on the argument order and the
scorer is not symmetric. -/
theorem c5_counterexample :
    fuzzyMatch (str "aaa aaa") (str "aaa bbb ccc") ≠
      fuzzyMatch (str "aaa bbb ccc") (str "aaa aaa") := by
  decide

theorem nat_max_comm (m n : Nat) : Nat.max m n = Nat.max n m := Nat.max_comm m n

theorem contains_true_iff (l : List (List Nat)) (a : List Nat) :
    l.contains a = true ↔ a ∈ l := by
  simp [List.contains, List.elem_iff]

theorem filter_or_length_disj {α : Type} (p q : α → Bool) (l : List α)
    (hdisj : ∀ x ∈ l, ¬(p x = true ∧ q x = true)) :
    (l.filter (fun x => p x || q x)).length = (l.filter p).length + (l.filter q).length := by
  induction l with
  | nil => simp
  | cons b bs ih =>
    have hb := hdisj b (List.mem_cons_self b bs)
    have ihr := ih (fun x hx => hdisj x (List.mem_cons_of_mem b hx))
    by_cases hp : p b = true
    · have hq : q b = false := by
        cases hqv : q b
        · rfl
        · exact absurd ⟨hp, hqv⟩ hb
      simp [List.filter_cons, hp, hq, ihr]
      omega
    · have hp' : p b = false := by
        cases hpv : p b
        · rfl
        · exact absurd hpv hp
      by_cases hq : q b = true
      · simp [List.filter_cons, hp', hq, ihr]
        omega
      · have hq' : q b = false := by
          cases hqv : q b
          · rfl
          · exact absurd hqv hq
        simp [List.filter_cons, hp', hq', ihr]

theorem filter_beq_length_nodup (w2 : List (List Nat)) (a : List Nat)
    (h : w2.Nodup) :
    (w2.filter (fun w => w == a)).length = if a ∈ w2 then 1 else 0 := by
  induction w2 with
  | nil => simp
  | cons b bs ih =>
    rw [List.nodup_cons] at h
    by_cases hba : b = a
    · subst hba
      rw [List.filter_cons]
      simp only [beq_self_eq_true, if_true]
      have : b ∉ bs := h.1
      rw [if_pos (List.mem_cons_self b bs)]
      have hnone : (bs.filter (fun w => w == b)).length = 0 := by
        rw [ih h.2]
        rw [if_neg this]
      simp [hnone]
    · rw [List.filter_cons]
      have : (b == a) = false := by
        simp [beq_eq_false_iff_ne]
        exact hba
      rw [this]
      simp only [Bool.false_eq_true, if_false]
      rw [ih h.2]
      have : a ∈ b :: bs ↔ a ∈ bs := by
        simp [List.mem_cons]
        intro hab
        exact absurd hab.symm hba
      by_cases hm : a ∈ bs
      · rw [if_pos hm, if_pos (this.mpr hm)]
      · rw [if_neg hm, if_neg (fun hh => hm (this.mp hh))]

theorem overlap_count_comm :
    ∀ w1 w2 : List (List Nat), w1.Nodup → w2.Nodup →
      (w1.filter (fun w => w2.contains w)).length =
        (w2.filter (fun w => w1.contains w)).length := by
  intro w1
  induction w1 with
  | nil => intro w2 _ _; simp
  | cons a t ih =>
    intro w2 h1 h2
    rw [List.nodup_cons] at h1
    have hat : a ∉ t := h1.1
    have ht : t.Nodup := h1.2
    have hcongr :
        w2.filter (fun w => (a :: t).contains w) =
          w2.filter (fun w => (w == a) || t.contains w) := by
      apply List.filter_congr
      intro x _
      simp [List.contains_cons, Bool.beq_eq_decide_eq]
    rw [hcongr]
    rw [filter_or_length_disj _ _ _ ?hd]
    case hd =>
      intro x _ hx
      have hxa : x = a := by simpa using hx.1
      rw [hxa] at hx
      exact hat ((contains_true_iff t a).mp hx.2)
    rw [filter_beq_length_nodup w2 a h2]
    rw [← ih w2 ht h2]
    rw [List.filter_cons]
    by_cases hm : a ∈ w2
    · rw [if_pos ((contains_true_iff w2 a).mpr hm)]
      rw [if_pos hm]
      simp only [List.length_cons]
      omega
    · have : w2.contains a = false := by
        cases hc : w2.contains a
        · rfl
        · exact absurd ((contains_true_iff w2 a).mp hc) hm
      rw [this]
      simp only [Bool.false_eq_true, if_false, if_neg hm]
      omega

/-- C5 (amended): the scorer is symmetric whenever neither side's filtered
token list contains a repeated token; with repeats the overlap count — and
hence the score — can depend on argument order (see the counterexample). -/
theorem c5_scorer_symmetric_nodup (a b : List Nat)
    (h1 : (tokensOf (normalizeTitle a)).Nodup)
    (h2 : (tokensOf (normalizeTitle b)).Nodup) :
    fuzzyMatch a b = fuzzyMatch b a := by
  simp only [fuzzyMatch]
  by_cases hn : normalizeTitle a = normalizeTitle b
  · rw [if_pos hn, if_pos hn.symm]
  · rw [if_neg hn,
      if_neg (fun hh : normalizeTitle b = normalizeTitle a => hn hh.symm)]
    by_cases he : tokensOf (normalizeTitle a) = [] ∨ tokensOf (normalizeTitle b) = []
    · rw [if_pos he, if_pos (Or.symm he)]
    · rw [if_neg he,
        if_neg (fun hh : tokensOf (normalizeTitle b) = [] ∨
            tokensOf (normalizeTitle a) = [] => he (Or.symm hh))]
      rw [overlap_count_comm _ _ h1 h2, nat_max_comm]

theorem c5_witness :
    (tokensOf (normalizeTitle (str "aaa bbb"))).Nodup ∧
      (tokensOf (normalizeTitle (str "aaa ccc"))).Nodup ∧
      fuzzyMatch (str "aaa bbb") (str "aaa ccc") =
        fuzzyMatch (str "aaa ccc") (str "aaa bbb") :=
  ⟨by decide, by decide,
   c5_scorer_symmetric_nodup (str "aaa bbb") (str "aaa ccc") (by decide) (by decide)⟩

/-- A metadata resolver that always answers with a fixed title absent from
the library (for the C1 scenario). -/
def c1Api : List Nat → OmdbOutcome :=
  fun _ => OmdbOutcome.success { title := str "zzzz", year := none }

/-- Initial orchestrator state for the C1 scenario: empty caches and a
one-entry movie library that does not match the resolved title. -/
def c1State : OrchestratorState :=
  { omdbCache := []
    realTimeCache := []
    movies := [{ name := some (str "other thing"), title := none }] }

def c1Id : List Nat := str "tt0000001"

/-- C1's counterexample: a resolution that finds no candidates returns `[]`
WITHOUT writing to the result cache, and an immediate second resolution of
the same identifier (well within the one-hour TTL) runs the ranking pass
over the library again. -/
theorem c1_counterexample :
    (searchMovieByImdbId c1Api true [] c1State c1Id 0).result = [] ∧
      (searchMovieByImdbId c1Api true [] c1State c1Id 0).state.realTimeCache = [] ∧
      (searchMovieByImdbId c1Api true []
          (searchMovieByImdbId c1Api true [] c1State c1Id 0).state c1Id
          1000).libraryScanned = true := by
  decide

theorem lookup_mapSet {α : Type} (k : List Nat) (v : α) (m : List (List Nat × α)) :
    (mapSet k v m).lookup k = some v := by
  simp [mapSet, List.lookup]

theorem getOfficialTitle_stable (api : List Nat → OmdbOutcome) (hasApiKey : Bool)
    (omdbCache : List (List Nat × Option OmdbData)) (imdbId : List Nat)
    (d : OmdbData)
    (h : (getOfficialTitle api hasApiKey omdbCache imdbId).data = some d) :
    (getOfficialTitle api hasApiKey
        (getOfficialTitle api hasApiKey omdbCache imdbId).cache imdbId).data = some d := by
  rcases hL : omdbCache.lookup imdbId with _ | v
  · by_cases hk : hasApiKey = true
    · rcases hapi : api imdbId with d0 | _ | _
      · have hres : getOfficialTitle api hasApiKey omdbCache imdbId =
            { data := some d0, cache := mapSet imdbId (some d0) omdbCache
              httpCalled := true } := by
          simp [getOfficialTitle, hL, hk, hapi]
        rw [hres] at h ⊢
        simp only at h
        simp only [getOfficialTitle, lookup_mapSet]
        exact h
      · have hres : (getOfficialTitle api hasApiKey omdbCache imdbId).data = none := by
          simp [getOfficialTitle, hL, hk, hapi]
        rw [hres] at h
        exact absurd h (by simp)
      · have hres : (getOfficialTitle api hasApiKey omdbCache imdbId).data = none := by
          simp [getOfficialTitle, hL, hk, hapi]
        rw [hres] at h
        exact absurd h (by simp)
    · have hk2 : hasApiKey = false := by
        cases hasApiKey
        · rfl
        · exact absurd rfl hk
      have hres : (getOfficialTitle api hasApiKey omdbCache imdbId).data = none := by
        simp [getOfficialTitle, hL, hk2]
      rw [hres] at h
      exact absurd h (by simp)
  · have hres : getOfficialTitle api hasApiKey omdbCache imdbId =
        { data := v, cache := omdbCache, httpCalled := false } := by
      simp [getOfficialTitle, hL]
    rw [hres] at h ⊢
    simp only at h ⊢
    rw [hres]
    exact h

theorem searchMovie_scans (api : List Nat → OmdbOutcome) (hasApiKey : Bool)
    (refreshLib : List LibraryEntry) (st : OrchestratorState) (imdbId : List Nat)
    (now : Nat)
    (hfresh : (match st.realTimeCache.lookup imdbId with
      | some cached =>
        if now - cached.timestamp < 3600000 then some cached.result else none
      | none => none) = (none : Option (List MatchCandidate)))
    (d : OmdbData)
    (hdata : (getOfficialTitle api hasApiKey st.omdbCache imdbId).data = some d) :
    (searchMovieByImdbId api hasApiKey refreshLib st imdbId now).libraryScanned = true := by
  simp only [searchMovieByImdbId, hfresh, hdata]
  split <;> split <;> rfl

/-- C1 (amended): empty results are NOT negatively cached.  When a
(non-cache-hit) movie resolution scans the library and produces no
candidates, it returns `[]` leaving `realTimeCache` unchanged, so a repeat
resolution at any later time inside the TTL window performs the full
library ranking pass again (only the resolver-level OMDb cache, which
stores per-identifier lookups, prevents a second HTTP call).  Only
non-empty results are written to the result cache. -/
theorem c1_negative_result_not_cached (api : List Nat → OmdbOutcome)
    (hasApiKey : Bool) (refreshLib : List LibraryEntry) (st : OrchestratorState)
    (imdbId : List Nat) (now now2 : Nat) (hnow : now ≤ now2)
    (hres : (searchMovieByImdbId api hasApiKey refreshLib st imdbId now).result = [])
    (hscan :
      (searchMovieByImdbId api hasApiKey refreshLib st imdbId now).libraryScanned = true) :
    (searchMovieByImdbId api hasApiKey refreshLib st imdbId now).state.realTimeCache =
        st.realTimeCache ∧
      (searchMovieByImdbId api hasApiKey refreshLib
          (searchMovieByImdbId api hasApiKey refreshLib st imdbId now).state imdbId
          now2).libraryScanned = true := by
  rcases hfv : (match st.realTimeCache.lookup imdbId with
    | some cached =>
      if now - cached.timestamp < 3600000 then some cached.result else none
    | none => none) with _ | r
  case some =>
    simp only [searchMovieByImdbId, hfv] at hscan
    exact absurd hscan (by simp)
  case none =>
  rcases hdata : (getOfficialTitle api hasApiKey st.omdbCache imdbId).data with _ | d
  case none =>
    simp only [searchMovieByImdbId, hfv, hdata] at hscan
    exact absurd hscan (by simp)
  case some =>
  by_cases hlen :
      0 < (findAllMatches d.title d.year
        (if st.movies = [] then refreshLib else st.movies)).length
  case pos =>
    simp only [searchMovieByImdbId, hfv, hdata, if_pos hlen] at hres
    have hl5 := congrArg List.length hres
    simp only [List.length_take, List.length_nil] at hl5
    omega
  case neg =>
    have hS : searchMovieByImdbId api hasApiKey refreshLib st imdbId now =
        { result := []
          state :=
            { st with
              omdbCache := (getOfficialTitle api hasApiKey st.omdbCache imdbId).cache
              movies := if st.movies = [] then refreshLib else st.movies }
          httpCalled := (getOfficialTitle api hasApiKey st.omdbCache imdbId).httpCalled
          libraryScanned := true } := by
      simp only [searchMovieByImdbId, hfv, hdata, if_neg hlen]
    rw [hS]
    refine ⟨rfl, ?_⟩
    apply searchMovie_scans _ _ _ _ _ _ ?hf2 d ?hd2
    case hf2 =>
      rcases hl : st.realTimeCache.lookup imdbId with _ | cached
      · simp only [hl]
      · have hfv2 : (if now - cached.timestamp < 3600000 then some cached.result
            else none) = (none : Option (List MatchCandidate)) := by
          rw [hl] at hfv
          exact hfv
        have hstale : ¬(now - cached.timestamp < 3600000) := by
          intro hlt
          rw [if_pos hlt] at hfv2
          exact absurd hfv2 (by simp)
        have hstale2 : ¬(now2 - cached.timestamp < 3600000) := by
          have : now - cached.timestamp ≤ now2 - cached.timestamp :=
            Nat.sub_le_sub_right hnow _
          omega
        simp only [hl, if_neg hstale2]
    case hd2 =>
      exact getOfficialTitle_stable api hasApiKey st.omdbCache imdbId d hdata

theorem c1_witness :
    (0 : Nat) ≤ 1000 ∧
      (searchMovieByImdbId c1Api true [] c1State c1Id 0).result = [] ∧
      (searchMovieByImdbId c1Api true [] c1State c1Id 0).libraryScanned = true ∧
      ((searchMovieByImdbId c1Api true [] c1State c1Id 0).state.realTimeCache =
          c1State.realTimeCache ∧
        (searchMovieByImdbId c1Api true []
            (searchMovieByImdbId c1Api true [] c1State c1Id 0).state c1Id
            1000).libraryScanned = true) :=
  ⟨by decide, by decide, by decide,
   c1_negative_result_not_cached c1Api true [] c1State c1Id 0 1000
     (by decide) (by decide) (by decide)⟩

theorem asciiLower_idem (c : Nat) : asciiLower (asciiLower c) = asciiLower c := by
  simp only [asciiLower]
  split_ifs <;> omega

theorem asciiLower32 : asciiLower 32 = 32 := by decide

theorem space_not_word {c : Nat} (h : isSpaceChar c = true) : isWordChar c = false := by
  simp only [isSpaceChar, decide_eq_true_eq] at h
  simp only [isWordChar, decide_eq_false_iff_not]
  omega

theorem word_ne_32 {c : Nat} (h : isWordChar c = true) : c ≠ 32 := by
  simp only [isWordChar, decide_eq_true_eq] at h
  omega

theorem map_id_on {α : Type} (f : α → α) :
    ∀ l : List α, (∀ a ∈ l, f a = a) → l.map f = l := by
  intro l
  induction l with
  | nil => intro _; rfl
  | cons a t ih =>
    intro h
    simp only [List.map_cons]
    rw [h a (List.mem_cons_self a t), ih (fun b hb => h b (List.mem_cons_of_mem a hb))]

theorem mem_despecial_chars {c : Nat} {s : List Nat} (h : c ∈ despecial s) :
    isWordChar c = true ∨ isSpaceChar c = true := by
  rcases List.mem_map.mp h with ⟨d, _, hd⟩
  by_cases hw : (isWordChar d || isSpaceChar d) = true
  · rw [if_pos hw] at hd
    rw [← hd]
    exact Bool.or_eq_true _ _ ▸ hw
  · rw [if_neg hw] at hd
    rw [← hd]
    right
    decide

theorem mem_despecial_source {c : Nat} {s : List Nat} (h : c ∈ despecial s) :
    c = 32 ∨ c ∈ s := by
  rcases List.mem_map.mp h with ⟨d, hdm, hd⟩
  by_cases hw : (isWordChar d || isSpaceChar d) = true
  · rw [if_pos hw] at hd
    right
    rw [← hd]
    exact hdm
  · rw [if_neg hw] at hd
    left
    exact hd.symm

theorem mem_collapseAux {c : Nat} :
    ∀ (b : Bool) (s : List Nat), c ∈ collapseAux b s → c = 32 ∨ c ∈ s := by
  intro b s
  induction s generalizing b with
  | nil => intro h; exact absurd h (by simp [collapseAux])
  | cons d ds ih =>
    intro h
    rw [collapseAux] at h
    split at h
    · split at h
      · rcases ih true h with h32 | hmem
        · exact Or.inl h32
        · exact Or.inr (List.mem_cons_of_mem d hmem)
      · rcases List.mem_cons.mp h with h32 | h'
        · exact Or.inl h32
        · rcases ih true h' with h32 | hmem
          · exact Or.inl h32
          · exact Or.inr (List.mem_cons_of_mem d hmem)
    · rcases List.mem_cons.mp h with hd | h'
      · exact Or.inr (hd ▸ List.mem_cons_self d ds)
      · rcases ih false h' with h32 | hmem
        · exact Or.inl h32
        · exact Or.inr (List.mem_cons_of_mem d hmem)

theorem collapseAux_clean {s : List Nat}
    (hs : ∀ c ∈ s, isWordChar c = true ∨ isSpaceChar c = true) :
    ∀ (b : Bool) (c : Nat), c ∈ collapseAux b s → isWordChar c = true ∨ c = 32 := by
  induction s with
  | nil => intro b c h; exact absurd h (by simp [collapseAux])
  | cons d ds ih =>
    have hds : ∀ c ∈ ds, isWordChar c = true ∨ isSpaceChar c = true :=
      fun c hc => hs c (List.mem_cons_of_mem d hc)
    intro b c h
    rw [collapseAux] at h
    split at h
    · split at h
      · exact ih hds true c h
      · rcases List.mem_cons.mp h with h32 | h'
        · exact Or.inr h32
        · exact ih hds true c h'
    · rename_i hdspace
      rcases List.mem_cons.mp h with hd | h'
      · subst hd
        rcases hs c (List.mem_cons_self c ds) with hw | hsp
        · exact Or.inl hw
        · exact absurd hsp (by simpa using hdspace)
      · exact ih hds false c h'

theorem mem_removeWordsAux {c : Nat} (p : List Nat → Bool) :
    ∀ (s acc : List Nat), c ∈ removeWordsAux p acc s → c ∈ acc ∨ c ∈ s := by
  intro s
  induction s with
  | nil =>
    intro acc h
    rw [removeWordsAux] at h
    split at h
    · exact absurd h (by simp)
    · exact Or.inl h
  | cons d ds ih =>
    intro acc h
    rw [removeWordsAux] at h
    split at h
    · rcases ih (acc ++ [d]) h with hic | hin
      · rcases List.mem_append.mp hic with h1 | h1
        · exact Or.inl h1
        · simp at h1
          exact Or.inr (h1 ▸ List.mem_cons_self d ds)
      · exact Or.inr (List.mem_cons_of_mem d hin)
    · rcases List.mem_append.mp h with h1 | h1
      · split at h1
        · exact absurd h1 (by simp)
        · exact Or.inl h1
      · rcases List.mem_cons.mp h1 with hd | h'
        · exact Or.inr (hd ▸ List.mem_cons_self d ds)
        · rcases ih [] h' with hic | hin
          · exact absurd hic (by simp)
          · exact Or.inr (List.mem_cons_of_mem d hin)

theorem mem_removeWords {c : Nat} (p : List Nat → Bool) (s : List Nat)
    (h : c ∈ removeWords p s) : c ∈ s := by
  rcases mem_removeWordsAux p s [] h with h1 | h1
  · exact absurd h1 (by simp)
  · exact h1

theorem mem_dropWhileSpaces {c : Nat} :
    ∀ s : List Nat, c ∈ s.dropWhile isSpaceChar → c ∈ s := by
  intro s
  induction s with
  | nil => intro h; exact absurd h (by simp)
  | cons d ds ih =>
    intro h
    rw [List.dropWhile] at h
    split at h
    · exact List.mem_cons_of_mem d (ih h)
    · exact h

theorem mem_dropTrailing {c : Nat} :
    ∀ s : List Nat, c ∈ dropTrailingSpaces s → c ∈ s := by
  intro s
  induction s with
  | nil => intro h; exact absurd h (by simp [dropTrailingSpaces])
  | cons d ds ih =>
    intro h
    rw [dropTrailingSpaces] at h
    split at h
    · exact absurd h (by simp)
    · rcases List.mem_cons.mp h with hd | h'
      · exact hd ▸ List.mem_cons_self d ds
      · exact List.mem_cons_of_mem d (ih h')

theorem mem_trimStr {c : Nat} {s : List Nat} (h : c ∈ trimStr s) : c ∈ s :=
  mem_dropWhileSpaces s (mem_dropTrailing _ h)

/-- No two adjacent spaces (the shape of `collapseWs` output). -/
def noRun32 (s : List Nat) : Prop :=
  s.Chain' (fun a b => ¬(a = 32 ∧ b = 32))

theorem collapseAux_spaces32 :
    ∀ (b : Bool) (s : List Nat) (c : Nat), c ∈ collapseAux b s →
      isSpaceChar c = true → c = 32 := by
  intro b s
  induction s generalizing b with
  | nil => intro c h; exact absurd h (by simp [collapseAux])
  | cons d ds ih =>
    intro c h hsp
    rw [collapseAux] at h
    split at h
    · split at h
      · exact ih true c h hsp
      · rcases List.mem_cons.mp h with h32 | h'
        · exact h32
        · exact ih true c h' hsp
    · rename_i hdspace
      rcases List.mem_cons.mp h with hd | h'
      · subst hd
        exact absurd hsp (by simpa using hdspace)
      · exact ih false c h' hsp

theorem collapseAux_noRun :
    ∀ s : List Nat,
      noRun32 (collapseAux false s) ∧ noRun32 (collapseAux true s) ∧
        (∀ c, (collapseAux true s).head? = some c → c ≠ 32) := by
  intro s
  induction s with
  | nil => exact ⟨List.chain'_nil, List.chain'_nil, by simp [collapseAux]⟩
  | cons d ds ih =>
    obtain ⟨ihF, ihT, ihH⟩ := ih
    by_cases hd : isSpaceChar d = true
    · have e1 : collapseAux false (d :: ds) = 32 :: collapseAux true ds := by
        simp [collapseAux, hd]
      have e2 : collapseAux true (d :: ds) = collapseAux true ds := by
        simp [collapseAux, hd]
      refine ⟨?_, ?_, ?_⟩
      · rw [e1]
        refine List.chain'_cons'.mpr ⟨?_, ihT⟩
        intro y hy
        intro hc
        exact ihH y hy hc.2
      · rw [e2]; exact ihT
      · rw [e2]; exact ihH
    · have e1 : collapseAux false (d :: ds) = d :: collapseAux false ds := by
        rw [collapseAux, if_neg hd]
      have e2 : collapseAux true (d :: ds) = d :: collapseAux false ds := by
        rw [collapseAux, if_neg hd]
      have hd32 : d ≠ 32 := by
        intro he
        exact hd (he ▸ (by decide))
      refine ⟨?_, ?_, ?_⟩
      · rw [e1]
        refine List.chain'_cons'.mpr ⟨fun y _ hc => hd32 hc.1, ihF⟩
      · rw [e2]
        refine List.chain'_cons'.mpr ⟨fun y _ hc => hd32 hc.1, ihF⟩
      · rw [e2]
        intro c hc
        simp at hc
        exact hc ▸ hd32

theorem collapseAux_id :
    ∀ s : List Nat, (∀ c ∈ s, isSpaceChar c = true → c = 32) → noRun32 s →
      collapseAux false s = s ∧
        ((∀ c, s.head? = some c → c ≠ 32) → collapseAux true s = s) := by
  intro s
  induction s with
  | nil => exact fun _ _ => ⟨rfl, fun _ => rfl⟩
  | cons d ds ih =>
    intro hsp hnr
    have hnr' := List.chain'_cons'.mp hnr
    have hds : ∀ c ∈ ds, isSpaceChar c = true → c = 32 :=
      fun c hc => hsp c (List.mem_cons_of_mem d hc)
    obtain ⟨ihF, ihT⟩ := ih hds hnr'.2
    constructor
    · by_cases hd : isSpaceChar d = true
      · have hd32 : d = 32 := hsp d (List.mem_cons_self d ds) hd
        subst hd32
        have e : collapseAux false (32 :: ds) = 32 :: collapseAux true ds := by
          simp [collapseAux, hd]
        rw [e, ihT ?hh]
        case hh =>
          intro c hc
          intro hc32
          exact hnr'.1 c hc ⟨rfl, hc32⟩
      · rw [collapseAux, if_neg hd, ihF]
    · intro hhead
      by_cases hd : isSpaceChar d = true
      · exact absurd (hsp d (List.mem_cons_self d ds) hd) (hhead d rfl)
      · rw [collapseAux, if_neg hd, ihF]

/-- The maximal word-character runs of a string (proof-side notion used to
reason about the whole-word deletions of `normalizeTitle`). -/
def wordsAux (acc : List Nat) : List Nat → List (List Nat)
  | [] => if acc = [] then [] else [acc]
  | c :: cs =>
    if isWordChar c then wordsAux (acc ++ [c]) cs
    else if acc = [] then wordsAux [] cs else acc :: wordsAux [] cs

def words (s : List Nat) : List (List Nat) :=
  wordsAux [] s

theorem wordsAux_append_word :
    ∀ (w : List Nat), (∀ c ∈ w, isWordChar c = true) →
      ∀ (acc rest : List Nat), wordsAux acc (w ++ rest) = wordsAux (acc ++ w) rest := by
  intro w
  induction w with
  | nil => intro _ acc rest; simp
  | cons c w' ih =>
    intro hw acc rest
    have hc : isWordChar c = true := hw c (List.mem_cons_self c w')
    have hw' : ∀ d ∈ w', isWordChar d = true :=
      fun d hd => hw d (List.mem_cons_of_mem c hd)
    show wordsAux acc (c :: (w' ++ rest)) = wordsAux (acc ++ c :: w') rest
    rw [wordsAux, if_pos hc]
    rw [ih hw' (acc ++ [c]) rest]
    simp

theorem removeWordsAux_id (p : List Nat → Bool) (hp : p [] = false) :
    ∀ (s acc : List Nat), (∀ w ∈ wordsAux acc s, p w = false) →
      removeWordsAux p acc s = acc ++ s := by
  intro s
  induction s with
  | nil =>
    intro acc hpr
    rw [removeWordsAux]
    by_cases hacc : acc = []
    · subst hacc
      rw [if_neg (by simp [hp])]
      rfl
    · have : p acc = false := by
        apply hpr
        rw [wordsAux, if_neg hacc]
        exact List.mem_singleton.mpr rfl
      rw [if_neg (by simp [this])]
      simp
  | cons c cs ih =>
    intro acc hpr
    rw [removeWordsAux]
    by_cases hc : isWordChar c = true
    · rw [if_pos hc]
      have hpr' : ∀ w ∈ wordsAux (acc ++ [c]) cs, p w = false := by
        intro w hw
        apply hpr
        rw [wordsAux, if_pos hc]
        exact hw
      rw [ih (acc ++ [c]) hpr']
      simp
    · rw [if_neg hc]
      have hrest : ∀ w ∈ wordsAux [] cs, p w = false := by
        intro w hw
        apply hpr
        rw [wordsAux, if_neg hc]
        by_cases hacc : acc = []
        · rw [if_pos hacc]; exact hw
        · rw [if_neg hacc]; exact List.mem_cons_of_mem acc hw
      rw [ih [] hrest]
      by_cases hacc : acc = []
      · subst hacc
        rw [if_neg (by simp [hp])]
        simp
      · have : p acc = false := by
          apply hpr
          rw [wordsAux, if_neg hc, if_neg hacc]
          exact List.mem_cons_self acc _
        rw [if_neg (by simp [this])]
        simp

theorem words_removeWordsAux (p : List Nat → Bool) :
    ∀ (s acc : List Nat), (∀ c ∈ acc, isWordChar c = true) →
      ∀ w ∈ words (removeWordsAux p acc s), w ∈ wordsAux acc s ∧ p w = false := by
  intro s
  induction s with
  | nil =>
    intro acc hacc w hw
    rw [removeWordsAux] at hw
    split at hw
    · exact absurd hw (by simp [words, wordsAux])
    · rename_i hpacc
      by_cases he : acc = []
      · subst he
        exact absurd hw (by simp [words, wordsAux])
      · have : words acc = [acc] := by
          rw [words, ← List.append_nil acc, wordsAux_append_word acc hacc [] []]
          simp [wordsAux, he]
        rw [this] at hw
        have hwacc : w = acc := List.mem_singleton.mp hw
        subst hwacc
        refine ⟨?_, by simpa using hpacc⟩
        rw [wordsAux, if_neg he]
        exact List.mem_singleton.mpr rfl
  | cons c cs ih =>
    intro acc hacc w hw
    rw [removeWordsAux] at hw
    split at hw
    · rename_i hc
      have hacc' : ∀ d ∈ acc ++ [c], isWordChar d = true := by
        intro d hd
        rcases List.mem_append.mp hd with h1 | h1
        · exact hacc d h1
        · simp at h1
          exact h1 ▸ hc
      have := ih (acc ++ [c]) hacc' w hw
      rw [wordsAux, if_pos hc]
      exact this
    · rename_i hc
      have hAword : ∀ d ∈ (if p acc then [] else acc), isWordChar d = true := by
        split
        · simp
        · exact hacc
      have hsplit : words ((if p acc then [] else acc) ++ c :: removeWordsAux p [] cs) =
          wordsAux (if p acc then [] else acc) (c :: removeWordsAux p [] cs) := by
        rw [words, wordsAux_append_word _ hAword [] _]
        simp
      rw [hsplit, wordsAux, if_neg hc] at hw
      have hrest : w ∈ wordsAux [] (removeWordsAux p [] cs) →
          w ∈ wordsAux acc (c :: cs) ∧ p w = false := by
        intro hwr
        have := ih [] (by simp) w (by rw [words]; exact hwr)
        refine ⟨?_, this.2⟩
        rw [wordsAux, if_neg hc]
        by_cases he : acc = []
        · rw [if_pos he]; exact this.1
        · rw [if_neg he]; exact List.mem_cons_of_mem acc this.1
      by_cases hpa : p acc = true
      · rw [if_pos hpa] at hw
        rw [if_pos rfl] at hw
        exact hrest hw
      · have hpa' : p acc = false := by
          cases h : p acc
          · rfl
          · exact absurd h hpa
        rw [if_neg hpa] at hw
        by_cases he : acc = []
        · rw [if_pos he] at hw
          exact hrest hw
        · rw [if_neg he] at hw
          rcases List.mem_cons.mp hw with hwacc | hwr
          · rw [hwacc]
            refine ⟨?_, hpa'⟩
            rw [wordsAux, if_neg hc, if_neg he]
            exact List.mem_cons_self acc _
          · exact hrest hwr

theorem words_removeWords (p : List Nat → Bool) (s : List Nat) :
    ∀ w ∈ words (removeWords p s), w ∈ words s ∧ p w = false := by
  intro w hw
  exact words_removeWordsAux p s [] (by simp) w hw

theorem words_collapseAux :
    ∀ s : List Nat,
      (∀ acc, wordsAux acc (collapseAux false s) = wordsAux acc s) ∧
        wordsAux [] (collapseAux true s) = wordsAux [] s := by
  intro s
  induction s with
  | nil => exact ⟨fun _ => rfl, rfl⟩
  | cons d ds ih =>
    obtain ⟨ihF, ihT⟩ := ih
    by_cases hd : isSpaceChar d = true
    · have hdw : isWordChar d = false := space_not_word hd
      have e1 : collapseAux false (d :: ds) = 32 :: collapseAux true ds := by
        simp [collapseAux, hd]
      have e2 : collapseAux true (d :: ds) = collapseAux true ds := by
        simp [collapseAux, hd]
      constructor
      · intro acc
        rw [e1, wordsAux]
        rw [if_neg (by decide)]
        conv_rhs => rw [wordsAux, if_neg (by simp [hdw])]
        by_cases he : acc = []
        · rw [if_pos he, if_pos he, ihT]
        · rw [if_neg he, if_neg he, ihT]
      · rw [e2, ihT, wordsAux, if_neg (by simp [hdw]), if_pos rfl]
    · have e1 : collapseAux false (d :: ds) = d :: collapseAux false ds := by
        simp [collapseAux, hd]
      have e2 : collapseAux true (d :: ds) = d :: collapseAux false ds := by
        simp [collapseAux, hd]
      by_cases hw : isWordChar d = true
      · constructor
        · intro acc
          rw [e1, wordsAux, if_pos hw, ihF]
          conv_rhs => rw [wordsAux, if_pos hw]
        · rw [e2, wordsAux, if_pos hw, ihF]
          conv_rhs => rw [wordsAux, if_pos hw]
      · constructor
        · intro acc
          rw [e1, wordsAux, if_neg hw, ihF]
          conv_rhs => rw [wordsAux, if_neg hw]
        · rw [e2, wordsAux, if_neg hw, if_pos rfl, ihF]
          conv_rhs => rw [wordsAux, if_neg hw, if_pos rfl]

theorem words_dropWhileSpaces :
    ∀ s : List Nat, wordsAux [] (s.dropWhile isSpaceChar) = wordsAux [] s := by
  intro s
  induction s with
  | nil => rfl
  | cons d ds ih =>
    rw [List.dropWhile]
    split
    · rename_i hd
      rw [ih, wordsAux, if_neg (by simp [space_not_word hd]), if_pos rfl]
    · rfl

theorem dropTrailing_nil_allspace :
    ∀ s : List Nat, dropTrailingSpaces s = [] → ∀ c ∈ s, isSpaceChar c = true := by
  intro s
  induction s with
  | nil => intro _ c hc; exact absurd hc (by simp)
  | cons d ds ih =>
    intro h c hc
    rw [dropTrailingSpaces] at h
    split at h
    · rename_i hcond
      rcases List.mem_cons.mp hc with h1 | h1
      · exact h1 ▸ hcond.2
      · exact ih hcond.1 c h1
    · exact absurd h (by simp)

theorem wordsAux_allspace :
    ∀ s : List Nat, (∀ c ∈ s, isSpaceChar c = true) → wordsAux [] s = [] := by
  intro s
  induction s with
  | nil => intro _; rfl
  | cons d ds ih =>
    intro h
    have hd := h d (List.mem_cons_self d ds)
    rw [wordsAux, if_neg (by simp [space_not_word hd]), if_pos rfl]
    exact ih (fun c hc => h c (List.mem_cons_of_mem d hc))

theorem words_dropTrailing :
    ∀ (s acc : List Nat), wordsAux acc (dropTrailingSpaces s) = wordsAux acc s := by
  intro s
  induction s with
  | nil => intro acc; rfl
  | cons d ds ih =>
    intro acc
    rw [dropTrailingSpaces]
    split
    · rename_i hcond
      have hds : wordsAux [] ds = [] := by
        exact wordsAux_allspace ds (dropTrailing_nil_allspace ds hcond.1)
      have hdw : isWordChar d = false := space_not_word hcond.2
      rw [wordsAux]
      conv_rhs => rw [wordsAux, if_neg (by simp [hdw])]
      by_cases he : acc = []
      · rw [if_pos he, if_pos he, hds]
      · rw [if_neg he, if_neg he, hds]
    · by_cases hw : isWordChar d = true
      · rw [wordsAux, if_pos hw, ih (acc ++ [d])]
        conv_rhs => rw [wordsAux, if_pos hw]
      · rw [wordsAux, if_neg hw, ih []]
        conv_rhs => rw [wordsAux, if_neg hw]

theorem words_trimStr (s : List Nat) : words (trimStr s) = words s := by
  rw [words, trimStr, words_dropTrailing, words_dropWhileSpaces, words]

theorem head_dropWhileSpaces :
    ∀ (s : List Nat) (c : Nat), (s.dropWhile isSpaceChar).head? = some c →
      isSpaceChar c = false := by
  intro s
  induction s with
  | nil => intro c h; exact absurd h (by simp)
  | cons d ds ih =>
    intro c h
    rw [List.dropWhile] at h
    split at h
    · exact ih c h
    · rename_i hd
      simp at h
      cases h
      simpa using hd

theorem dropWhileSpaces_id_of_head (s : List Nat)
    (h : ∀ c, s.head? = some c → isSpaceChar c = false) :
    s.dropWhile isSpaceChar = s := by
  cases s with
  | nil => rfl
  | cons d ds =>
    simp [List.dropWhile, h d rfl]

theorem dropTrailing_idem :
    ∀ s : List Nat, dropTrailingSpaces (dropTrailingSpaces s) = dropTrailingSpaces s := by
  intro s
  induction s with
  | nil => rfl
  | cons d ds ih =>
    rw [dropTrailingSpaces]
    split
    · rfl
    · rename_i hcond
      rw [dropTrailingSpaces, ih]
      rw [if_neg hcond]

theorem head_dropTrailing (s : List Nat) :
    dropTrailingSpaces s = [] ∨ (dropTrailingSpaces s).head? = s.head? := by
  cases s with
  | nil => left; rfl
  | cons d ds =>
    rw [dropTrailingSpaces]
    split
    · left; rfl
    · right; rfl

theorem trimStr_idem (s : List Nat) : trimStr (trimStr s) = trimStr s := by
  rw [trimStr, trimStr]
  rcases head_dropTrailing (s.dropWhile isSpaceChar) with h | h
  · rw [h]
    rfl
  · rw [dropWhileSpaces_id_of_head _ ?hh, dropTrailing_idem]
    case hh =>
      intro c hc
      rw [h] at hc
      exact head_dropWhileSpaces s c hc

theorem chain_dropWhileSpaces {R : Nat → Nat → Prop} :
    ∀ s : List Nat, s.Chain' R → (s.dropWhile isSpaceChar).Chain' R := by
  intro s
  induction s with
  | nil => intro h; exact h
  | cons d ds ih =>
    intro h
    rw [List.dropWhile]
    split
    · exact ih (List.chain'_cons'.mp h).2
    · exact h

theorem chain_dropTrailing {R : Nat → Nat → Prop} :
    ∀ s : List Nat, s.Chain' R → (dropTrailingSpaces s).Chain' R := by
  intro s
  induction s with
  | nil => intro h; exact h
  | cons d ds ih =>
    intro h
    rw [dropTrailingSpaces]
    split
    · exact List.chain'_nil
    · have h' := List.chain'_cons'.mp h
      refine List.chain'_cons'.mpr ⟨?_, ih h'.2⟩
      intro y hy
      rcases head_dropTrailing ds with hnil | hhead
      · rw [hnil] at hy
        exact absurd hy (by simp)
      · rw [hhead] at hy
        exact h'.1 y hy

theorem chain_trimStr {R : Nat → Nat → Prop} (s : List Nat) (h : s.Chain' R) :
    (trimStr s).Chain' R :=
  chain_dropTrailing _ (chain_dropWhileSpaces s h)

theorem normalize_chars (x : List Nat) :
    ∀ c ∈ normalizeTitle x, (isWordChar c = true ∨ c = 32) ∧ asciiLower c = c := by
  intro c hc
  by_cases hx : x = []
  · rw [hx] at hc
    exact absurd hc (by simp [normalizeTitle])
  · rw [normalizeTitle, if_neg hx] at hc
    have h1 : c ∈ collapseWs (despecial (lowerStr x)) := by
      have h2 := mem_trimStr hc
      have h3 := mem_removeWords _ _ h2
      have h4 := mem_removeWords _ _ h3
      have h5 := mem_removeWords _ _ h4
      exact mem_removeWords _ _ h5
    constructor
    · exact collapseAux_clean (fun d hd => mem_despecial_chars hd) false c h1
    · rcases mem_collapseAux false _ h1 with h32 | h2
      · rw [h32]; exact asciiLower32
      · rcases mem_despecial_source h2 with h32 | h3
        · rw [h32]; exact asciiLower32
        · rcases List.mem_map.mp h3 with ⟨d, _, hd⟩
          rw [← hd]
          exact asciiLower_idem d

theorem normalize_words_clean (x : List Nat) :
    ∀ w ∈ words (normalizeTitle x),
      isYearWord w = false ∧ isQualityWord w = false ∧
        isLangWord w = false ∧ isSeriesWord w = false := by
  intro w hw
  by_cases hx : x = []
  · rw [hx] at hw
    exact absurd hw (by simp [normalizeTitle, words, wordsAux])
  · rw [normalizeTitle, if_neg hx, words_trimStr] at hw
    have h1 := words_removeWords _ _ w hw
    have h2 := words_removeWords _ _ w h1.1
    have h3 := words_removeWords _ _ w h2.1
    have h4 := words_removeWords _ _ w h3.1
    exact ⟨h4.2, h3.2, h2.2, h1.2⟩

theorem normalize_of_canonical (y : List Nat)
    (hc : ∀ c ∈ y, (isWordChar c = true ∨ c = 32) ∧ asciiLower c = c)
    (hw : ∀ w ∈ words y,
      isYearWord w = false ∧ isQualityWord w = false ∧
        isLangWord w = false ∧ isSeriesWord w = false) :
    normalizeTitle y = trimStr (collapseWs y) := by
  by_cases hy : y = []
  · rw [hy]
    rfl
  · rw [normalizeTitle, if_neg hy]
    have hlower : lowerStr y = y := map_id_on _ y (fun c hcy => (hc c hcy).2)
    have hdesp : despecial y = y := by
      apply map_id_on
      intro c hcy
      rcases (hc c hcy).1 with hwd | h32
      · rw [if_pos (by simp [hwd])]
      · rw [h32]
        decide
    rw [hlower, hdesp]
    have hwords : ∀ w ∈ wordsAux [] (collapseWs y),
        isYearWord w = false ∧ isQualityWord w = false ∧
          isLangWord w = false ∧ isSeriesWord w = false := by
      intro w hww
      apply hw
      show w ∈ wordsAux [] y
      rw [← (words_collapseAux y).1 []]
      exact hww
    have hremY : removeWords isYearWord (collapseWs y) = collapseWs y := by
      rw [removeWords]
      have := removeWordsAux_id isYearWord (by decide) (collapseWs y) []
        (fun w hww => (hwords w hww).1)
      simpa using this
    have hremQ : removeWords isQualityWord (collapseWs y) = collapseWs y := by
      rw [removeWords]
      have := removeWordsAux_id isQualityWord (by decide) (collapseWs y) []
        (fun w hww => (hwords w hww).2.1)
      simpa using this
    have hremL : removeWords isLangWord (collapseWs y) = collapseWs y := by
      rw [removeWords]
      have := removeWordsAux_id isLangWord (by decide) (collapseWs y) []
        (fun w hww => (hwords w hww).2.2.1)
      simpa using this
    have hremS : removeWords isSeriesWord (collapseWs y) = collapseWs y := by
      rw [removeWords]
      have := removeWordsAux_id isSeriesWord (by decide) (collapseWs y) []
        (fun w hww => (hwords w hww).2.2.2)
      simpa using this
    rw [hremY, hremQ, hremL, hremS]

/-- C4's counterexample: deleting the year token of "a 1999 b" leaves a
double space that only a second normalization pass collapses, so
`normalize` is not idempotent. -/
theorem c4_counterexample :
    normalizeTitle (normalizeTitle (str "a 1999 b")) ≠ normalizeTitle (str "a 1999 b") := by
  decide

/-- C4 (amended): normalization is not idempotent — token deletion happens
after whitespace collapsing and can leave double spaces — but it stabilizes
after two applications: `normalize (normalize x)` is a fixed point of
`normalize` for every string `x`. -/
theorem c4_normalize_stabilizes_after_two (x : List Nat) :
    normalizeTitle (normalizeTitle (normalizeTitle x)) =
      normalizeTitle (normalizeTitle x) := by
  have hcx := normalize_chars x
  have hwx := normalize_words_clean x
  have hyz : normalizeTitle (normalizeTitle x) =
      trimStr (collapseWs (normalizeTitle x)) :=
    normalize_of_canonical _ hcx hwx
  rw [hyz]
  have hzc : ∀ c ∈ trimStr (collapseWs (normalizeTitle x)),
      (isWordChar c = true ∨ c = 32) ∧ asciiLower c = c := by
    intro c hcz
    have h1 : c ∈ collapseWs (normalizeTitle x) := mem_trimStr hcz
    rcases mem_collapseAux false _ h1 with h32 | hmem
    · exact ⟨Or.inr h32, h32 ▸ asciiLower32⟩
    · exact hcx c hmem
  have hzw : ∀ w ∈ words (trimStr (collapseWs (normalizeTitle x))),
      isYearWord w = false ∧ isQualityWord w = false ∧
        isLangWord w = false ∧ isSeriesWord w = false := by
    intro w hww
    rw [words_trimStr] at hww
    apply hwx
    show w ∈ wordsAux [] (normalizeTitle x)
    rw [← (words_collapseAux (normalizeTitle x)).1 []]
    exact hww
  have hz32 : ∀ c ∈ trimStr (collapseWs (normalizeTitle x)),
      isSpaceChar c = true → c = 32 := by
    intro c hcz hsp
    rcases (hzc c hcz).1 with hwd | h32
    · exact absurd hwd (by simp [space_not_word hsp])
    · exact h32
  have hznr : noRun32 (trimStr (collapseWs (normalizeTitle x))) :=
    chain_trimStr _ (collapseAux_noRun (normalizeTitle x)).1
  have hcol : collapseWs (trimStr (collapseWs (normalizeTitle x))) =
      trimStr (collapseWs (normalizeTitle x)) := by
    rw [collapseWs]
    exact (collapseAux_id _ hz32 hznr).1
  have hztrim : trimStr (trimStr (collapseWs (normalizeTitle x))) =
      trimStr (collapseWs (normalizeTitle x)) := trimStr_idem _
  rw [normalize_of_canonical _ hzc hzw, hcol, hztrim]
